import Mathlib

/-!
# Verification of `cloudknot/config.py`

A shallow embedding of the configuration-management module `config.py`
of the cloudknot repository, together with proofs about its operations.

The module manipulates an INI-style config file through a global
`configparser.ConfigParser` object called `CONFIG`.  Every operation
starts with `CONFIG.clear(); CONFIG.read(config_file)`, so the parser
state is re-initialised from the file at the beginning of each call.
We therefore model the program state as a pair of documents: the
on-disk file and the in-memory parser.

A parsed INI document is an ordered association list of sections, each
section an ordered association list of option/value pairs (this is the
data model of `configparser`: insertion-ordered dictionaries with unique
keys).  Reading a file that was written by `CONFIG.write` recovers the
same document, so file read/write is modelled as the identity on
documents; the file system path resolution done by `get_config_file`
is abstracted into the `file` field of the state.
-/

set_option autoImplicit false

namespace Cloudknot

/-- One section body: ordered option/value pairs (`configparser` keeps
options as an ordered dict with unique keys). -/
abbrev ConfigSection := List (String × String)

/-- A parsed INI document: ordered association list of named sections. -/
abbrev ConfigDocument := List (String × ConfigSection)

/-- Program state: the on-disk config file and the in-memory global
`CONFIG` parser. -/
structure ConfigState where
  file : ConfigDocument
  mem : ConfigDocument
  deriving DecidableEq, Repr

/-- Errors that the Python code can raise.  `keyError` is raised by
`str.format` when a named replacement field has no matching argument;
`noSection` is `configparser.NoSectionError`; `awsError` stands for any
failure of an AWS existence check other than its "does not exist"
signal. -/
inductive PyErr where
  | keyError (key : String)
  | noSection (sec : String)
  | awsError (msg : String)
  deriving DecidableEq, Repr

/-- Result of an AWS existence check: `notFound` models
`cloudknot.aws.ResourceDoesNotExistException`; `other` models any other
exception the check can raise. -/
inductive CheckErr where
  | notFound
  | other (msg : String)
  deriving DecidableEq, Repr

/-- The section names of a document (`CONFIG.sections()`). -/
def sectionNames (d : ConfigDocument) : List String :=
  d.map (·.1)

/-- Look up a section body (`CONFIG._sections[sec]` access). -/
def getSection (d : ConfigDocument) (sec : String) : Option ConfigSection :=
  (d.find? (·.1 == sec)).map (·.2)

/-- `CONFIG.has_section(sec)`. -/
def hasSection (d : ConfigDocument) (sec : String) : Bool :=
  (getSection d sec).isSome

/-- `CONFIG.add_section(sec)`: appends a fresh empty section (the code
only calls it after checking the section is absent). -/
def addSection (d : ConfigDocument) (sec : String) : ConfigDocument :=
  d ++ [(sec, [])]

/-- `CONFIG.remove_section(sec)`: deletes the entry with that name. -/
def removeSection (d : ConfigDocument) (sec : String) : ConfigDocument :=
  d.filter (·.1 != sec)

/-- Apply `f` to the body of the section named `sec`, leaving all other
sections (and all section names) unchanged.  Common shape of
`CONFIG.set` and `CONFIG.remove_option` on an existing section. -/
def mapSection (d : ConfigDocument) (sec : String) (f : ConfigSection → ConfigSection) :
    ConfigDocument :=
  d.map fun e => if e.1 == sec then (e.1, f e.2) else e

/-- Look up an option's value inside one section body. -/
def lookupOpt (o : ConfigSection) (opt : String) : Option String :=
  (o.find? (·.1 == opt)).map (·.2)

/-- `CONFIG.get(sec, opt)` as a total lookup (`some` iff the section
exists and contains the option; the code only calls `get` under the
guard `has_section(sec) and has_option(sec, opt)`). -/
def getOpt (d : ConfigDocument) (sec opt : String) : Option String :=
  (getSection d sec).bind (lookupOpt · opt)

/-- Upsert inside one section body: replace the value at an existing
key, or append the pair (`parser._sections[section][option] = value`). -/
def setOptInSection (o : ConfigSection) (opt val : String) : ConfigSection :=
  if o.any (·.1 == opt) then
    o.map fun p => if p.1 == opt then (opt, val) else p
  else
    o ++ [(opt, val)]

/-- `CONFIG.set(sec, opt, val)`; the code calls it only after ensuring
the section exists, so the missing-section `NoSectionError` path is
unreachable and `mapSection` (a no-op on a missing section) is a
faithful model. -/
def setOpt (d : ConfigDocument) (sec opt val : String) : ConfigDocument :=
  mapSection d sec (setOptInSection · opt val)

/-- Delete an option from one section body; deleting an absent option
is a no-op (`ConfigParser.remove_option` returns `False` then). -/
def removeOptInSection (o : ConfigSection) (opt : String) : ConfigSection :=
  o.filter (·.1 != opt)

/-- `CONFIG.remove_option(sec, opt)` on an existing section. -/
def removeOption (d : ConfigDocument) (sec opt : String) : ConfigDocument :=
  mapSection d sec (removeOptInSection · opt)

/-- The option names of one section (`CONFIG.options(sec)`), `none`
when the section is absent (`NoSectionError`). -/
def optionsOf (d : ConfigDocument) (sec : String) : Option (List String) :=
  (getSection d sec).map (fun o => o.map (·.1))

/-! ## The operations of `config.py` -/

/-- `add_resource(section, option, value)`: re-read the file into the
parser, create the section if absent, set the option, write the parser
back to the file. -/
def add_resource (sec opt val : String) (s : ConfigState) : ConfigState :=
  let mem := s.file
  let mem1 := if hasSection mem sec then mem else addSection mem sec
  let mem2 := setOpt mem1 sec opt val
  { file := mem2, mem := mem2 }

/-- `remove_resource(section, option)`: re-read, then
`CONFIG.remove_option(section, option)` — which raises `NoSectionError`
when the section is absent, and otherwise deletes the option if present
(silently doing nothing when it is not) — then write back.  On error the
carried state is the one at the raise: the file untouched, the parser
freshly read. -/
def remove_resource (sec opt : String) (s : ConfigState) :
    Except (PyErr × ConfigState) ConfigState :=
  let mem := s.file
  if hasSection mem sec then
    let mem2 := removeOption mem sec opt
    .ok { file := mem2, mem := mem2 }
  else
    .error (.noSection sec, { file := s.file, mem := mem })

/-- The hard-coded fallback region of `get_region`. -/
def fallbackRegion : String := "us-east-1"

/-- The region obtained from the ambient AWS config file
(`~/.aws/config`): `none` models a missing file; otherwise
`aws_config.get('default', 'region', fallback='us-east-1')`, whose
`fallback` argument absorbs both a missing `default` section and a
missing `region` option. -/
def ambientRegion (awsCfg : Option ConfigDocument) : String :=
  match awsCfg with
  | none => fallbackRegion
  | some doc => (getOpt doc "default" "region").getD fallbackRegion

/-- `get_region()`.  `env` is the value of the `AWS_DEFAULT_REGION`
environment variable (`none` when unset); `awsCfg` is the parsed
ambient AWS config file (`none` when the file does not exist).  Returns
the region together with the resulting state: when the cloudknot config
file already holds `aws.region` the file is left as is; otherwise the
resolved region is written into it (creating the `aws` section if
needed). -/
def get_region (env : Option String) (awsCfg : Option ConfigDocument)
    (s : ConfigState) : String × ConfigState :=
  let mem := s.file
  match getOpt mem "aws" "region" with
  | some r => (r, { file := s.file, mem := mem })
  | none =>
    let region :=
      match env with
      | some r => r
      | none => ambientRegion awsCfg
    let mem1 := if hasSection mem "aws" then mem else addSection mem "aws"
    let mem2 := setOpt mem1 "aws" "region" region
    (region, { file := mem2, mem := mem2 })

/-- `set_region(region)`.  `catalog` is the list of region names
returned by the EC2 `describe_regions` call.  When `region` is not in
the catalog the code executes
`raise ValueError('`region` must be in {regions:s}'.format(str(region_names)))`;
the format string names a field `regions` but only a positional argument
is supplied, so `str.format` raises `KeyError('regions')` while building
the message and the `ValueError` is never constructed.  The error is
raised before the config file is read, so the carried state is the
caller's state unchanged.  On success the region is written under
`aws.region` (the subsequent rebinding of the `boto3` clients is an
external side effect outside this model). -/
def set_region (catalog : List String) (region : String) (s : ConfigState) :
    Except (PyErr × ConfigState) ConfigState :=
  if region ∈ catalog then
    let mem := s.file
    let mem1 := if hasSection mem "aws" then mem else addSection mem "aws"
    let mem2 := setOpt mem1 "aws" "region" region
    .ok { file := mem2, mem := mem2 }
  else
    .error (.keyError "regions", s)

/-- The `approved_sections` list of `verify_sections`. -/
def approved_sections : List String :=
  ["aws", "roles", "vpc", "security-groups", "docker-repos",
   "job-definitions", "compute-environments", "job-queues", "jobs"]

/-- `section_approved(sec)`: the name is in the approved list, or its
first space-separated word is `pars` or `jars`
(`sec.split(' ', 1)[0] in ['pars', 'jars']`). -/
def section_approved (sec : String) : Bool :=
  approved_sections.contains sec ||
    ["pars", "jars"].contains ((sec.splitOn " ").headD "")

/-- `verify_sections()`: re-read the file into the parser, then remove
every unapproved section, iterating over the snapshot of section names
that `CONFIG.sections()` returned.  Unlike the other mutating
operations, the function never writes the parser back to the file. -/
def verify_sections (s : ConfigState) : ConfigState :=
  let mem := s.file
  let mem2 := (sectionNames mem).foldl
    (fun m sec => if section_approved sec then m else removeSection m sec) mem
  { file := s.file, mem := mem2 }

/-! ## Basic lemmas about the document operations -/

theorem getSection_cons_self (k : String) (b : ConfigSection) (d : ConfigDocument) :
    getSection ((k, b) :: d) k = some b := by
  simp [getSection, List.find?]

theorem getSection_cons_ne {k sec : String} {b : ConfigSection} {d : ConfigDocument}
    (h : sec ≠ k) : getSection ((k, b) :: d) sec = getSection d sec := by
  have hkb : (k == sec) = false := beq_eq_false_iff_ne.mpr fun hc => h hc.symm
  simp [getSection, List.find?, hkb]

theorem mapSection_cons (k : String) (b : ConfigSection) (d : ConfigDocument)
    (sec : String) (f : ConfigSection → ConfigSection) :
    mapSection ((k, b) :: d) sec f =
      (if k == sec then (k, f b) else (k, b)) :: mapSection d sec f := rfl

theorem getSection_mapSection (d : ConfigDocument) (sec sec' : String)
    (f : ConfigSection → ConfigSection) :
    getSection (mapSection d sec f) sec' =
      if sec' = sec then (getSection d sec').map f else getSection d sec' := by
  induction d with
  | nil => simp [getSection, mapSection]
  | cons e d ih =>
    obtain ⟨k, b⟩ := e
    rw [mapSection_cons]
    by_cases hks : k = sec
    · subst hks
      rw [if_pos (beq_self_eq_true k)]
      by_cases hs' : sec' = k
      · subst hs'
        rw [getSection_cons_self, getSection_cons_self, if_pos rfl]
        rfl
      · rw [getSection_cons_ne hs', ih, getSection_cons_ne hs']
    · rw [if_neg (by simp [hks])]
      by_cases hs' : sec' = k
      · subst hs'
        rw [getSection_cons_self, getSection_cons_self, if_neg hks]
      · rw [getSection_cons_ne hs', ih, getSection_cons_ne hs']

theorem hasSection_mapSection (d : ConfigDocument) (sec sec' : String)
    (f : ConfigSection → ConfigSection) :
    hasSection (mapSection d sec f) sec' = hasSection d sec' := by
  unfold hasSection
  rw [getSection_mapSection]
  by_cases h : sec' = sec
  · simp [h]
  · simp [h]

theorem mapSection_id (d : ConfigDocument) (sec : String) :
    mapSection d sec (fun o => o) = d := by
  unfold mapSection
  have h : (fun (e : String × ConfigSection) =>
      if e.1 == sec then (e.1, e.2) else e) = fun e => e := by
    funext e
    split <;> rfl
  rw [h, List.map_id']

theorem mapSection_comp (d : ConfigDocument) (sec : String)
    (f g : ConfigSection → ConfigSection) :
    mapSection (mapSection d sec f) sec g = mapSection d sec (fun o => g (f o)) := by
  unfold mapSection
  rw [List.map_map]
  have h : ((fun (e : String × ConfigSection) => if e.1 == sec then (e.1, g e.2) else e) ∘
      fun e => if e.1 == sec then (e.1, f e.2) else e) =
      fun e => if e.1 == sec then (e.1, g (f e.2)) else e := by
    funext e
    by_cases hk : e.1 = sec
    · simp [Function.comp, hk]
    · simp [Function.comp, beq_eq_false_iff_ne.mpr hk]
  rw [h]

theorem hasSection_addSection_self (d : ConfigDocument) (sec : String) :
    hasSection (addSection d sec) sec = true := by
  induction d with
  | nil => simp [hasSection, addSection, getSection_cons_self]
  | cons e d ih =>
    obtain ⟨k, b⟩ := e
    by_cases h : sec = k
    · subst h
      simp [hasSection, addSection, getSection_cons_self]
    · unfold hasSection addSection at *
      rw [List.cons_append, getSection_cons_ne h]
      exact ih

theorem lookupOpt_setOptInSection_self (o : ConfigSection) (opt v : String) :
    lookupOpt (setOptInSection o opt v) opt = some v := by
  unfold setOptInSection
  by_cases h : o.any (·.1 == opt)
  · rw [if_pos h]
    induction o with
    | nil => simp at h
    | cons p o ih =>
      by_cases hp : p.1 = opt
      · simp [lookupOpt, List.find?, hp]
      · have hp' : (p.1 == opt) = false := beq_eq_false_iff_ne.mpr hp
        have h' : o.any (·.1 == opt) = true := by
          simpa [List.any_cons, hp'] using h
        simpa [lookupOpt, List.find?, hp'] using ih h'
  · rw [if_neg h]
    induction o with
    | nil => simp [lookupOpt, List.find?]
    | cons p o ih =>
      have hp : (p.1 == opt) = false := by
        by_contra hc
        exact h (by simp [List.any_cons, eq_true_of_ne_false hc])
      have h' : ¬(o.any (·.1 == opt) = true) := by
        intro hc
        exact h (by simp [List.any_cons, hc])
      simpa [lookupOpt, List.find?, hp] using ih h'

theorem getOpt_setOpt_self (d : ConfigDocument) (sec opt v : String)
    (h : hasSection d sec = true) :
    getOpt (setOpt d sec opt v) sec opt = some v := by
  unfold getOpt setOpt
  rw [getSection_mapSection, if_pos rfl]
  unfold hasSection at h
  obtain ⟨o, ho⟩ := Option.isSome_iff_exists.mp h
  rw [ho]
  exact lookupOpt_setOptInSection_self o opt v

theorem lookupOpt_removeOptInSection_self (o : ConfigSection) (opt : String) :
    lookupOpt (removeOptInSection o opt) opt = none := by
  unfold lookupOpt removeOptInSection
  rw [Option.map_eq_none']
  rw [List.find?_eq_none]
  intro p hp
  have := (List.mem_filter.mp hp).2
  simp only [bne_iff_ne, ne_eq] at this
  simp [this]

theorem getOpt_removeOption_self (d : ConfigDocument) (sec opt : String) :
    getOpt (removeOption d sec opt) sec opt = none := by
  unfold getOpt removeOption
  rw [getSection_mapSection, if_pos rfl]
  cases hg : getSection d sec with
  | none => rfl
  | some o =>
    simp only [Option.map_some', Option.some_bind]
    exact lookupOpt_removeOptInSection_self o opt

/-! ## `verify_sections` as a filter -/

theorem foldl_removeSection (names : List String) (m : ConfigDocument) :
    names.foldl (fun acc sec => if section_approved sec then acc else removeSection acc sec) m =
      m.filter (fun e => section_approved e.1 || !(decide (e.1 ∈ names))) := by
  induction names generalizing m with
  | nil => simp
  | cons n rest ih =>
    rw [List.foldl_cons]
    by_cases hn : section_approved n
    · rw [if_pos hn, ih]
      apply List.filter_congr
      intro e _
      by_cases hen : e.1 = n
      · simp [hen, hn]
      · simp [List.mem_cons, hen]
    · rw [if_neg hn, ih]
      unfold removeSection
      rw [List.filter_filter]
      apply List.filter_congr
      intro e _
      by_cases hen : e.1 = n
      · have ha : section_approved n = false := eq_false_of_ne_true hn
        simp [hen, ha]
      · simp [List.mem_cons, hen]

theorem verify_sections_eq (s : ConfigState) :
    verify_sections s =
      { file := s.file, mem := s.file.filter (fun e => section_approved e.1) } := by
  have h : (sectionNames s.file).foldl
      (fun acc sec => if section_approved sec then acc else removeSection acc sec) s.file =
      s.file.filter (fun e => section_approved e.1) := by
    rw [foldl_removeSection]
    apply List.filter_congr
    intro e he
    have hm : e.1 ∈ sectionNames s.file := List.mem_map_of_mem (·.1) he
    simp [hm]
  exact congrArg (fun m => ({ file := s.file, mem := m } : ConfigState)) h

/-! ## Claim theorems: the config CRUD operations -/

/-- C1: for every (section, option, value) triple, `add_resource` followed by a
fresh re-read of the config file yields exactly that value stored under that
option key in that section; the section is created if it was absent, and the
change is persisted to the file immediately (the on-disk document of the
resulting state holds the key). -/
theorem add_resource_read_back (sec opt val : String) (s : ConfigState) :
    getOpt (add_resource sec opt val s).file sec opt = some val ∧
      hasSection (add_resource sec opt val s).file sec = true := by
  have h1 : hasSection
      (if hasSection s.file sec then s.file else addSection s.file sec) sec = true := by
    split
    · assumption
    · exact hasSection_addSection_self s.file sec
  constructor
  · show getOpt (setOpt (if hasSection s.file sec then s.file else addSection s.file sec)
      sec opt val) sec opt = some val
    exact getOpt_setOpt_self _ sec opt val h1
  · show hasSection (setOpt (if hasSection s.file sec then s.file else addSection s.file sec)
      sec opt val) sec = true
    unfold setOpt
    rw [hasSection_mapSection]
    exact h1

/-- A concrete config state whose `roles` section holds the single option
`alpha`; used to exercise `remove_resource` on present and absent keys. -/
def c2Doc : ConfigDocument := [("roles", [("alpha", "arn:role-alpha")])]

/-- The state whose file and parser both hold `c2Doc`. -/
def c2State : ConfigState := { file := c2Doc, mem := c2Doc }

/-- C2 counterexample: removing a non-existent option from an existing section
does not fail.  On a file whose `roles` section lacks the option `beta`,
`remove_resource "roles" "beta"` returns successfully with the state unchanged
(`ConfigParser.remove_option` merely returns `False` for a missing option),
contradicting the claim that an `OptionNotFound` error is propagated. -/
theorem remove_resource_missing_option_no_error :
    remove_resource "roles" "beta" c2State = .ok c2State := rfl

/-- C2 (amended): `remove_resource(section, option)` fails — with a
section-not-found error, not an option-not-found one — exactly when the section
is absent; when the section exists the call always succeeds, even if the option
is absent, and a fresh re-read of the config file afterwards shows the key
absent. -/
theorem remove_resource_spec (sec opt : String) (s : ConfigState) :
    (hasSection s.file sec = false →
      remove_resource sec opt s =
        .error (.noSection sec, { file := s.file, mem := s.file })) ∧
    (hasSection s.file sec = true →
      ∃ s', remove_resource sec opt s = .ok s' ∧ getOpt s'.file sec opt = none) := by
  constructor
  · intro h
    simp [remove_resource, h]
  · intro h
    refine ⟨{ file := removeOption s.file sec opt, mem := removeOption s.file sec opt },
      ?_, ?_⟩
    · simp [remove_resource, h]
    · exact getOpt_removeOption_self s.file sec opt

/-- Witness for the amended C2: on the concrete state `c2State`, removing from
the absent section `vpc` errors with `noSection "vpc"`, and removing the
present key `roles.alpha` succeeds with the key absent on re-read. -/
theorem remove_resource_spec_witness :
    remove_resource "vpc" "x" c2State =
        .error (.noSection "vpc", { file := c2Doc, mem := c2Doc }) ∧
      ∃ s', remove_resource "roles" "alpha" c2State = .ok s' ∧
        getOpt s'.file "roles" "alpha" = none :=
  ⟨(remove_resource_spec "vpc" "x" c2State).1 (by decide),
   (remove_resource_spec "roles" "alpha" c2State).2 (by decide)⟩

/-- C9: `verify_sections` is idempotent — running it twice in sequence yields
exactly the same state (hence the same surviving sections and contents) as
running it once.  It re-derives the parser contents from the file, which it
never modifies, so a second run recomputes the same result. -/
theorem verify_sections_idempotent (s : ConfigState) :
    verify_sections (verify_sections s) = verify_sections s := rfl

/-- C6 (code behavior at the divergence): `verify_sections` computes, in the
in-memory parser, exactly the document with every unapproved section deleted —
the deletion rule of the claim — but, contrary to the claim, it never rewrites
the document to disk: the on-disk config file is left unchanged whatever it
contained, so a fresh re-read still shows the unapproved sections. -/
theorem verify_sections_no_write (s : ConfigState) :
    (verify_sections s).file = s.file ∧
      (verify_sections s).mem = s.file.filter (fun e => section_approved e.1) := by
  rw [verify_sections_eq]
  exact ⟨rfl, rfl⟩

/-! ## Claim theorems: region resolution -/

/-- Spec-side definition (from the spec's words, for comparison with
`get_region`): resolve the region through the precedence chain — the config
file's `aws.region` value if present, otherwise the environment variable if
set, otherwise the region the ambient AWS config file defines (when it exists
and defines one), otherwise the hard-coded `us-east-1`. -/
def specRegionPrecedence (cfg env amb : Option String) : String :=
  match cfg with
  | some r => r
  | none =>
    match env with
    | some r => r
    | none =>
      match amb with
      | some r => r
      | none => "us-east-1"

/-- C3: `get_region` resolves the region by exactly the spec's precedence
chain: config-file `aws.region`, then the `AWS_DEFAULT_REGION` environment
variable, then the `default.region` entry of the ambient AWS config file when
that file exists and defines one, then the fallback `us-east-1`.  In
particular, with all three earlier sources set to distinct values the
config-file value wins, and removing each source in turn yields the next. -/
theorem get_region_precedence (env : Option String) (awsCfg : Option ConfigDocument)
    (s : ConfigState) :
    (get_region env awsCfg s).1 =
      specRegionPrecedence (getOpt s.file "aws" "region") env
        (awsCfg.bind fun d => getOpt d "default" "region") := by
  cases hc : getOpt s.file "aws" "region" with
  | some r => simp [get_region, hc, specRegionPrecedence]
  | none =>
    cases env with
    | some r => simp [get_region, hc, specRegionPrecedence]
    | none =>
      cases awsCfg with
      | none =>
        simp [get_region, hc, specRegionPrecedence, ambientRegion, fallbackRegion]
      | some doc =>
        cases hd : getOpt doc "default" "region" with
        | some a =>
          simp [get_region, hc, specRegionPrecedence, ambientRegion, hd]
        | none =>
          simp [get_region, hc, specRegionPrecedence, ambientRegion, fallbackRegion, hd]

/-- When the config file already stores `aws.region`, `get_region` returns it
and leaves the file untouched. -/
theorem get_region_of_stored {s : ConfigState} {r : String}
    (env : Option String) (awsCfg : Option ConfigDocument)
    (h : getOpt s.file "aws" "region" = some r) :
    (get_region env awsCfg s).1 = r ∧ (get_region env awsCfg s).2.file = s.file := by
  simp [get_region, h]

/-- C4: whenever `aws.region` is absent from the config file, `get_region`
writes the resolved region back into the file (creating the `aws` section if
needed), so that any subsequent `get_region` — whatever the environment or
ambient AWS config then look like — finds it in the config file and returns
the same value; when `aws.region` is already present, the config file is left
unchanged. -/
theorem get_region_memoizes (env : Option String) (awsCfg : Option ConfigDocument)
    (s : ConfigState) :
    (getOpt s.file "aws" "region" = none →
      getOpt ((get_region env awsCfg s).2).file "aws" "region" =
          some (get_region env awsCfg s).1 ∧
        ∀ (env' : Option String) (awsCfg' : Option ConfigDocument),
          (get_region env' awsCfg' (get_region env awsCfg s).2).1 =
            (get_region env awsCfg s).1) ∧
    (∀ r, getOpt s.file "aws" "region" = some r →
      ((get_region env awsCfg s).2).file = s.file) := by
  constructor
  · intro h
    have hsec : hasSection (if hasSection s.file "aws" then s.file
        else addSection s.file "aws") "aws" = true := by
      split
      · assumption
      · exact hasSection_addSection_self s.file "aws"
    have hr : getOpt ((get_region env awsCfg s).2).file "aws" "region" =
        some (get_region env awsCfg s).1 := by
      simp only [get_region, h]
      exact getOpt_setOpt_self _ _ _ _ hsec
    refine ⟨hr, fun env' awsCfg' => ?_⟩
    exact (get_region_of_stored env' awsCfg' hr).1
  · intro r h
    exact (get_region_of_stored env awsCfg h).2

/-- The empty config state: an empty file freshly read into the parser. -/
def emptyState : ConfigState := { file := [], mem := [] }

/-- Witness for C4: starting from an empty config file with the environment
region set to `us-west-2`, `get_region` returns `us-west-2`, stores it under
`aws.region` in the file, and a second call with no environment and no ambient
file still returns `us-west-2` from the config file. -/
theorem get_region_memoizes_witness :
    getOpt ((get_region (some "us-west-2") none emptyState).2).file "aws" "region" =
        some "us-west-2" ∧
      (get_region none none (get_region (some "us-west-2") none emptyState).2).1 =
        "us-west-2" :=
  ⟨((get_region_memoizes (some "us-west-2") none emptyState).1 rfl).1,
   ((get_region_memoizes (some "us-west-2") none emptyState).1 rfl).2 none none⟩

/-- C5 (code behavior at the divergence): for every region absent from the
live region catalog, `set_region` fails before the config file is read or
written, so the stored region is left unchanged — but the error surfaced is a
`KeyError('regions')` escaping from the malformed
`'...{regions:s}'.format(str(region_names))` call, raised while the intended
`ValueError` message is being built, so the `ValueError` (the spec's
`InvalidRegion`) is never constructed. -/
theorem set_region_invalid (catalog : List String) (region : String)
    (s : ConfigState) (h : region ∉ catalog) :
    set_region catalog region s = .error (.keyError "regions", s) := by
  simp [set_region, h]

/-- Witness for C5: `set_region("mars-1")` against the catalog
`["us-east-1", "eu-west-1"]` fails with the `KeyError` and carries the state
unchanged. -/
theorem set_region_invalid_witness :
    set_region ["us-east-1", "eu-west-1"] "mars-1" emptyState =
      .error (.keyError "regions", emptyState) :=
  set_region_invalid _ _ _ (by decide)

/-! ## The `prune` operation -/

/-- Modelled from the spec: the per-resource-kind existence checkers of
`cloudknot.aws` (the constructors `iam.IamRole`, `ec2.Vpc`,
`ec2.SecurityGroup`), which are not part of this excerpt.  Per the spec, each
is an external capability that, given an identifier, either returns
successfully (the resource exists) or signals a specific "not found"
condition (`ResourceDoesNotExistException`); any other failure is an ordinary
exception. -/
structure Checkers where
  iamRole : String → Except CheckErr Unit
  vpc : String → Except CheckErr Unit
  securityGroup : String → Except CheckErr Unit

/-- A checker that never raises anything but the "not found" signal: the
normal operating regime assumed by the spec's edge-case policy. -/
def benign (c : String → Except CheckErr Unit) : Prop :=
  ∀ x msg, c x ≠ .error (.other msg)

/-- Outcome of the in-memory part of `prune`: the resulting parser document,
or the propagated exception paired with the parser document at the moment of
the raise (the Python exception leaves the global `CONFIG` in exactly that
state). -/
abbrev PruneOut := Except (PyErr × ConfigDocument) ConfigDocument

/-- One `for x in CONFIG.options(sec): try: check(x) except
ResourceDoesNotExistException: CONFIG.remove_option(sec, x)` loop body,
iterating over the snapshot list `opts` that `CONFIG.options` returned. -/
def pruneOpts (check : String → Except CheckErr Unit) (sec : String) :
    List String → ConfigDocument → PruneOut
  | [], mem => .ok mem
  | o :: rest, mem =>
    match check o with
    | .ok _ => pruneOpts check sec rest mem
    | .error .notFound => pruneOpts check sec rest (removeOption mem sec o)
    | .error (.other msg) => .error (.awsError msg, mem)

/-- One whole section of `prune`: `CONFIG.options(sec)` (raising
`NoSectionError` when the section is absent) followed by the loop over the
returned snapshot. -/
def pruneSection (check : String → Except CheckErr Unit) (sec : String)
    (mem : ConfigDocument) : PruneOut :=
  match optionsOf mem sec with
  | none => .error (.noSection sec, mem)
  | some opts => pruneOpts check sec opts mem

/-- The checker used for the `docker-repos` section: the loop body in the
source is `pass`, so every entry is accepted without any AWS call (the
section header is still read, so a missing section still raises). -/
def alwaysOk : String → Except CheckErr Unit := fun _ => .ok ()

/-- The sections `prune` walks, in source order, each with the existence check
the source applies to its entries.  The source checks `job-definitions`,
`compute-environments`, `job-queues` and `jobs` against `iam.IamRole` (for
`jobs` even passing the identifier as the keyword `job_id`) rather than the
semantically matching resource kind — reproduced here as the spec notes. -/
def pruneSteps (ck : Checkers) : List (String × (String → Except CheckErr Unit)) :=
  [("roles", ck.iamRole),
   ("vpc", ck.vpc),
   ("security-groups", ck.securityGroup),
   ("docker-repos", alwaysOk),
   ("job-definitions", ck.iamRole),
   ("compute-environments", ck.iamRole),
   ("job-queues", ck.iamRole),
   ("jobs", ck.iamRole)]

/-- The section names `prune` touches, in processing order. -/
def trackedSections : List String :=
  ["roles", "vpc", "security-groups", "docker-repos", "job-definitions",
   "compute-environments", "job-queues", "jobs"]

/-- Run the section loops in order, short-circuiting on the first uncaught
exception. -/
def runSteps : List (String × (String → Except CheckErr Unit)) → ConfigDocument → PruneOut
  | [], mem => .ok mem
  | st :: rest, mem =>
    match pruneSection st.2 st.1 mem with
    | .ok m => runSteps rest m
    | .error e => .error e

/-- `prune()`: run `verify_sections()` (whose in-memory deletions are then
discarded), re-read the config file into the parser, and walk the eight
tracked sections in order.  Like `verify_sections`, the function never writes
the parser back to the file. -/
def prune (ck : Checkers) (s : ConfigState) : Except (PyErr × ConfigState) ConfigState :=
  let sv := verify_sections s
  let mem := sv.file
  match runSteps (pruneSteps ck) mem with
  | .ok m => .ok { file := sv.file, mem := m }
  | .error (e, m) => .error (e, { file := sv.file, mem := m })

/-- The tracked sections strictly after `k` in processing order. -/
def afterSection (names : List String) (k : String) : List String :=
  (names.dropWhile (fun n => n != k)).drop 1

/-! ## Structural lemmas about `prune` -/

theorem removeOption_eq (d : ConfigDocument) (sec opt : String) :
    removeOption d sec opt = mapSection d sec (fun b => removeOptInSection b opt) := rfl

theorem verify_sections_file (s : ConfigState) : (verify_sections s).file = s.file := rfl

/-- Every state `pruneOpts` can leave the parser in — its normal result as
well as the state carried by a propagated exception — arises from the initial
document by editing only the section being pruned. -/
theorem pruneOpts_shape (c : String → Except CheckErr Unit) (sec : String)
    (opts : List String) :
    ∀ mem : ConfigDocument,
      (∃ g, pruneOpts c sec opts mem = .ok (mapSection mem sec g)) ∨
        (∃ msg g, pruneOpts c sec opts mem = .error (.awsError msg, mapSection mem sec g)) := by
  induction opts with
  | nil =>
    intro mem
    exact Or.inl ⟨fun o => o, by rw [mapSection_id]; rfl⟩
  | cons o rest ih =>
    intro mem
    cases hc : c o with
    | ok u =>
      rcases ih mem with ⟨g, hg⟩ | ⟨msg, g, hg⟩
      · exact Or.inl ⟨g, by simp [pruneOpts, hc, hg]⟩
      · exact Or.inr ⟨msg, g, by simp [pruneOpts, hc, hg]⟩
    | error ce =>
      cases ce with
      | notFound =>
        rcases ih (removeOption mem sec o) with ⟨g, hg⟩ | ⟨msg, g, hg⟩
        · refine Or.inl ⟨fun b => g (removeOptInSection b o), ?_⟩
          have hstep : pruneOpts c sec (o :: rest) mem =
              pruneOpts c sec rest (removeOption mem sec o) := by
            simp [pruneOpts, hc]
          rw [hstep, hg, removeOption_eq, mapSection_comp]
        · refine Or.inr ⟨msg, fun b => g (removeOptInSection b o), ?_⟩
          have hstep : pruneOpts c sec (o :: rest) mem =
              pruneOpts c sec rest (removeOption mem sec o) := by
            simp [pruneOpts, hc]
          rw [hstep, hg, removeOption_eq, mapSection_comp]
      | other msg =>
        refine Or.inr ⟨msg, fun o => o, ?_⟩
        rw [mapSection_id]
        simp [pruneOpts, hc]

theorem pruneOpts_ok_shape {c : String → Except CheckErr Unit} {sec : String}
    {opts : List String} {mem m : ConfigDocument}
    (h : pruneOpts c sec opts mem = .ok m) : ∃ g, m = mapSection mem sec g := by
  rcases pruneOpts_shape c sec opts mem with ⟨g, hg⟩ | ⟨msg, g, hg⟩
  · rw [hg] at h
    exact ⟨g, (Except.ok.inj h).symm⟩
  · rw [hg] at h
    exact absurd h (by simp)

theorem pruneOpts_error {c : String → Except CheckErr Unit} {sec : String}
    {opts : List String} {mem m' : ConfigDocument} {e : PyErr}
    (h : pruneOpts c sec opts mem = .error (e, m')) :
    (∃ msg, e = .awsError msg) ∧ ∃ g, m' = mapSection mem sec g := by
  rcases pruneOpts_shape c sec opts mem with ⟨g, hg⟩ | ⟨msg, g, hg⟩
  · rw [hg] at h
    exact absurd h (by simp)
  · rw [hg] at h
    have hp := Except.error.inj h
    have he : e = .awsError msg := (congrArg Prod.fst hp).symm
    have hm : m' = mapSection mem sec g := (congrArg Prod.snd hp).symm
    exact ⟨⟨msg, he⟩, g, hm⟩

theorem pruneOpts_benign {c : String → Except CheckErr Unit} {sec : String}
    (hb : benign c) (opts : List String) :
    ∀ mem : ConfigDocument, ∃ m, pruneOpts c sec opts mem = .ok m := by
  induction opts with
  | nil => exact fun mem => ⟨mem, rfl⟩
  | cons o rest ih =>
    intro mem
    cases hc : c o with
    | ok u =>
      obtain ⟨m, hm⟩ := ih mem
      exact ⟨m, by simp [pruneOpts, hc, hm]⟩
    | error ce =>
      cases ce with
      | notFound =>
        obtain ⟨m, hm⟩ := ih (removeOption mem sec o)
        exact ⟨m, by simp [pruneOpts, hc, hm]⟩
      | other msg => exact absurd hc (hb o msg)

theorem pruneSection_missing {c : String → Except CheckErr Unit} {sec : String}
    {mem : ConfigDocument} (h : hasSection mem sec = false) :
    pruneSection c sec mem = .error (.noSection sec, mem) := by
  have hg : getSection mem sec = none := by
    unfold hasSection at h
    exact Option.not_isSome_iff_eq_none.mp (by simp [h])
  simp [pruneSection, optionsOf, hg]

theorem pruneSection_present_benign {c : String → Except CheckErr Unit} {sec : String}
    {mem : ConfigDocument} (hb : benign c) (h : hasSection mem sec = true) :
    ∃ g, pruneSection c sec mem = .ok (mapSection mem sec g) := by
  obtain ⟨o, ho⟩ := Option.isSome_iff_exists.mp h
  obtain ⟨m, hm⟩ := pruneOpts_benign hb (o.map (·.1)) mem
  obtain ⟨g, hg⟩ := pruneOpts_ok_shape hm
  refine ⟨g, ?_⟩
  rw [← hg]
  simpa [pruneSection, optionsOf, ho] using hm

theorem pruneSection_ok {c : String → Except CheckErr Unit} {sec : String}
    {mem m : ConfigDocument} (h : pruneSection c sec mem = .ok m) :
    ∃ g, m = mapSection mem sec g := by
  unfold pruneSection at h
  cases ho : optionsOf mem sec with
  | none =>
    rw [ho] at h
    exact absurd h (by simp)
  | some opts =>
    rw [ho] at h
    exact pruneOpts_ok_shape h

theorem pruneSection_error {c : String → Except CheckErr Unit} {sec : String}
    {mem m' : ConfigDocument} {e : PyErr}
    (h : pruneSection c sec mem = .error (e, m')) :
    (e = .noSection sec ∧ m' = mem ∧ hasSection mem sec = false) ∨
      ((∃ msg, e = .awsError msg) ∧ ∃ g, m' = mapSection mem sec g) := by
  unfold pruneSection at h
  cases ho : optionsOf mem sec with
  | none =>
    rw [ho] at h
    have hp := Except.error.inj h
    refine Or.inl ⟨(congrArg Prod.fst hp).symm, (congrArg Prod.snd hp).symm, ?_⟩
    unfold optionsOf at ho
    unfold hasSection
    simp [Option.map_eq_none'.mp ho]
  | some opts =>
    rw [ho] at h
    exact Or.inr (pruneOpts_error h)

theorem alwaysOk_benign : benign alwaysOk := by
  intro x msg h
  simp [alwaysOk] at h

theorem benign_const_notFound : benign (fun _ => .error .notFound) := by
  intro x msg h
  simp at h

theorem pruneSteps_names (ck : Checkers) :
    (pruneSteps ck).map (·.1) = trackedSections := rfl

theorem trackedSections_nodup : trackedSections.Nodup := by decide

theorem pruneSteps_benign (ck : Checkers) (h1 : benign ck.iamRole)
    (h2 : benign ck.vpc) (h3 : benign ck.securityGroup) :
    ∀ st ∈ pruneSteps ck, benign st.2 := by
  intro st hst
  simp only [pruneSteps, List.mem_cons, List.not_mem_nil, or_false] at hst
  rcases hst with rfl | rfl | rfl | rfl | rfl | rfl | rfl | rfl
  · exact h1
  · exact h2
  · exact h3
  · exact alwaysOk_benign
  · exact h1
  · exact h1
  · exact h1
  · exact h1

theorem runSteps_benign_ok (l : List (String × (String → Except CheckErr Unit)))
    (hb : ∀ st ∈ l, benign st.2) :
    ∀ mem : ConfigDocument, (∀ n ∈ l.map (·.1), hasSection mem n = true) →
      ∃ m, runSteps l mem = .ok m := by
  induction l with
  | nil => exact fun mem _ => ⟨mem, rfl⟩
  | cons st rest ih =>
    intro mem hpres
    have hb1 : benign st.2 := hb st (List.mem_cons_self st rest)
    have hp1 : hasSection mem st.1 = true := hpres st.1 (by simp)
    obtain ⟨g, hg⟩ := pruneSection_present_benign hb1 hp1
    obtain ⟨m, hm⟩ := ih (fun x hx => hb x (List.mem_cons_of_mem st hx))
      (mapSection mem st.1 g)
      (fun n hn => by rw [hasSection_mapSection]; exact hpres n (by simp [hn]))
    exact ⟨m, by simp [runSteps, hg, hm]⟩

theorem runSteps_ok_shape (l : List (String × (String → Except CheckErr Unit))) :
    ∀ mem m : ConfigDocument, runSteps l mem = .ok m →
      (∀ sec, hasSection m sec = hasSection mem sec) ∧
        (∀ sec, sec ∉ l.map (·.1) → getSection m sec = getSection mem sec) := by
  induction l with
  | nil =>
    intro mem m h
    have := Except.ok.inj h
    subst this
    exact ⟨fun _ => rfl, fun _ _ => rfl⟩
  | cons st rest ih =>
    intro mem m h
    cases hps : pruneSection st.2 st.1 mem with
    | error e =>
      rw [show runSteps (st :: rest) mem = .error e by simp [runSteps, hps]] at h
      exact absurd h (by simp)
    | ok m2 =>
      have h2 : runSteps rest m2 = .ok m := by
        rw [← h]
        simp [runSteps, hps]
      obtain ⟨g, hg⟩ := pruneSection_ok hps
      subst hg
      refine ⟨fun sec => ?_, fun sec hsec => ?_⟩
      · rw [(ih _ _ h2).1 sec, hasSection_mapSection]
      · simp only [List.map_cons, List.mem_cons, not_or] at hsec
        rw [(ih _ _ h2).2 sec hsec.2, getSection_mapSection, if_neg hsec.1]

theorem runSteps_error_decomp (l : List (String × (String → Except CheckErr Unit))) :
    ∀ (mem m' : ConfigDocument) (e : PyErr), runSteps l mem = .error (e, m') →
      ∃ l1 st l2 mid, l = l1 ++ st :: l2 ∧ runSteps l1 mem = .ok mid ∧
        pruneSection st.2 st.1 mid = .error (e, m') := by
  induction l with
  | nil =>
    intro mem m' e h
    exact absurd h (by simp [runSteps])
  | cons st rest ih =>
    intro mem m' e h
    cases hps : pruneSection st.2 st.1 mem with
    | error e2 =>
      have h' : (Except.error e2 : Except (PyErr × ConfigDocument) ConfigDocument) =
          .error (e, m') := by
        rw [← h]
        simp [runSteps, hps]
      have he2 : e2 = (e, m') := Except.error.inj h'
      exact ⟨[], st, rest, mem, rfl, rfl, by rw [hps, he2]⟩
    | ok m2 =>
      have h2 : runSteps rest m2 = .error (e, m') := by
        rw [← h]
        simp [runSteps, hps]
      obtain ⟨l1, st', l2, mid, hl, hrun, herr⟩ := ih m2 m' e h2
      refine ⟨st :: l1, st', l2, mid, by rw [hl]; rfl, ?_, herr⟩
      simp [runSteps, hps, hrun]

theorem runSteps_first_missing (l : List (String × (String → Except CheckErr Unit))) :
    ∀ (mem : ConfigDocument) (k : String),
      (∀ st ∈ l, benign st.2) → (l.map (·.1)).Nodup →
      (l.map (·.1)).find? (fun n => !(hasSection mem n)) = some k →
      ∃ m', runSteps l mem = .error (.noSection k, m') ∧
        ∀ sec ∈ afterSection (l.map (·.1)) k, getSection m' sec = getSection mem sec := by
  induction l with
  | nil =>
    intro mem k _ _ hk
    simp at hk
  | cons st rest ih =>
    intro mem k hb hnd hk
    simp only [List.map_cons] at hnd
    have hnd' := List.nodup_cons.mp hnd
    cases hpres : hasSection mem st.1 with
    | false =>
      have hfind : (List.map (·.1) (st :: rest)).find? (fun n => !(hasSection mem n)) =
          some st.1 := by
        simp [List.find?, hpres]
      have hkeq : st.1 = k := Option.some.inj (hfind.symm.trans hk)
      subst hkeq
      refine ⟨mem, ?_, fun sec _ => rfl⟩
      simp [runSteps, pruneSection_missing hpres]
    | true =>
      have hk' : (rest.map (·.1)).find? (fun n => !(hasSection mem n)) = some k := by
        simpa [List.find?, hpres] using hk
      have hkmem : k ∈ rest.map (·.1) := List.mem_of_find?_eq_some hk'
      have hstk : st.1 ≠ k := fun hc => hnd'.1 (hc ▸ hkmem)
      have hb1 : benign st.2 := hb st (List.mem_cons_self st rest)
      obtain ⟨g, hg⟩ := pruneSection_present_benign hb1 hpres
      have hk2 : (rest.map (·.1)).find?
          (fun n => !(hasSection (mapSection mem st.1 g) n)) = some k := by
        have hfn : (fun n => !(hasSection (mapSection mem st.1 g) n)) =
            (fun n => !(hasSection mem n)) := by
          funext n
          rw [hasSection_mapSection]
        rw [hfn]
        exact hk'
      obtain ⟨m', hrun, hafter⟩ := ih (mapSection mem st.1 g) k
        (fun x hx => hb x (List.mem_cons_of_mem st hx)) hnd'.2 hk2
      refine ⟨m', ?_, ?_⟩
      · simp [runSteps, hg, hrun]
      · intro sec hsec
        have hpred : (st.1 != k) = true := bne_iff_ne.mpr hstk
        have hAfter : afterSection (List.map (·.1) (st :: rest)) k =
            afterSection (List.map (·.1) rest) k := by
          simp [afterSection, List.dropWhile, hpred]
        have hsec' : sec ∈ afterSection (List.map (·.1) rest) k := hAfter ▸ hsec
        have hsub : List.Sublist (afterSection (List.map (·.1) rest) k)
            (List.map (·.1) rest) :=
          (List.drop_sublist 1 _).trans (List.dropWhile_sublist _)
        have hsecmem : sec ∈ rest.map (·.1) := hsub.subset hsec'
        have hne : sec ≠ st.1 := fun hc => hnd'.1 (hc ▸ hsecmem)
        rw [hafter sec hsec', getSection_mapSection, if_neg hne]

/-- If a section's snapshot contains an option whose check raises something
other than not-found, the loop over that snapshot cannot complete normally. -/
theorem pruneOpts_must_error (c : String → Except CheckErr Unit) (sec : String)
    (o msg : String) (hco : c o = .error (.other msg)) :
    ∀ (opts : List String) (mem : ConfigDocument), o ∈ opts →
      ∃ e m', pruneOpts c sec opts mem = .error (e, m') := by
  intro opts
  induction opts with
  | nil =>
    intro mem h
    simp at h
  | cons p rest ih =>
    intro mem hmem
    cases hc : c p with
    | ok u =>
      have hop : o ∈ rest := by
        rcases List.mem_cons.mp hmem with rfl | h
        · exact absurd (hco.symm.trans hc) (by simp)
        · exact h
      obtain ⟨e, m', hm⟩ := ih mem hop
      exact ⟨e, m', by simp [pruneOpts, hc, hm]⟩
    | error ce =>
      cases ce with
      | notFound =>
        have hop : o ∈ rest := by
          rcases List.mem_cons.mp hmem with rfl | h
          · exact absurd (hco.symm.trans hc) (by simp)
          · exact h
        obtain ⟨e, m', hm⟩ := ih (removeOption mem sec p) hop
        exact ⟨e, m', by simp [pruneOpts, hc, hm]⟩
      | other msg2 => exact ⟨.awsError msg2, mem, by simp [pruneOpts, hc]⟩

theorem pruneSection_must_error {c : String → Except CheckErr Unit} {sec : String}
    {mem : ConfigDocument} (o msg : String) (hco : c o = .error (.other msg))
    (ho : o ∈ (optionsOf mem sec).getD []) :
    ∃ e m', pruneSection c sec mem = .error (e, m') := by
  cases hopt : optionsOf mem sec with
  | none => exact ⟨.noSection sec, mem, by simp [pruneSection, hopt]⟩
  | some opts =>
    rw [hopt] at ho
    simp only [Option.getD_some] at ho
    obtain ⟨e, m', hm⟩ := pruneOpts_must_error c sec o msg hco opts mem ho
    exact ⟨e, m', by simp [pruneSection, hopt, hm]⟩

/-- If any walked section of the file contains an entry whose check raises a
non-notFound failure, the section walk propagates an uncaught checker
failure. -/
theorem runSteps_propagates (l : List (String × (String → Except CheckErr Unit))) :
    ∀ mem : ConfigDocument, (∀ n ∈ l.map (·.1), hasSection mem n = true) →
      (l.map (·.1)).Nodup →
      ∀ st ∈ l, ∀ o msg, o ∈ (optionsOf mem st.1).getD [] →
        st.2 o = .error (.other msg) →
        ∃ e m', runSteps l mem = .error (e, m') ∧ ∃ msg', e = .awsError msg' := by
  induction l with
  | nil =>
    intro mem _ _ st hst
    simp at hst
  | cons st0 rest ih =>
    intro mem hpres hnd st hst o msg ho hco
    cases hps : pruneSection st0.2 st0.1 mem with
    | error em =>
      obtain ⟨e, m'⟩ := em
      refine ⟨e, m', by simp [runSteps, hps], ?_⟩
      rcases pruneSection_error hps with ⟨_, _, hfalse⟩ | ⟨hmsg, _⟩
      · rw [hpres st0.1 (by simp)] at hfalse
        exact absurd hfalse (by simp)
      · exact hmsg
    | ok m2 =>
      obtain ⟨g, hg⟩ := pruneSection_ok hps
      subst hg
      have hst' : st ∈ rest := by
        rcases List.mem_cons.mp hst with rfl | h
        · obtain ⟨e, m', hm⟩ := pruneSection_must_error o msg hco ho
          rw [hps] at hm
          exact absurd hm (by simp)
        · exact h
      simp only [List.map_cons] at hnd
      have hnd' := List.nodup_cons.mp hnd
      have hne : st.1 ≠ st0.1 := by
        intro hc
        exact hnd'.1 (hc ▸ List.mem_map_of_mem (·.1) hst')
      have ho2 : o ∈ (optionsOf (mapSection mem st0.1 g) st.1).getD [] := by
        unfold optionsOf
        rw [getSection_mapSection, if_neg hne]
        exact ho
      obtain ⟨e, m', hm, hmsg⟩ := ih (mapSection mem st0.1 g)
        (fun n hn => by rw [hasSection_mapSection]; exact hpres n (by simp [hn]))
        hnd'.2 st hst' o msg ho2 hco
      exact ⟨e, m', by simp [runSteps, hps, hm], hmsg⟩

/-- Unfolding of `prune`: `verify_sections` leaves the file unchanged and the
parser is re-read from the file, so `prune` is the section walk started on the
on-disk document. -/
theorem prune_eq (ck : Checkers) (s : ConfigState) :
    prune ck s =
      match runSteps (pruneSteps ck) s.file with
      | .ok m => .ok { file := s.file, mem := m }
      | .error (e, m) => .error (e, { file := s.file, mem := m }) := rfl

/-! ## Claim theorems: `prune` -/

/-- C8: during `prune`, the "resource does not exist" signal is the only
condition handled locally.  Assuming the eight walked sections are present:
(a) when every existence check either succeeds or signals not-found, `prune`
completes normally (not-found is recovered by deleting the entry and the
iteration continues); (b) whenever `prune` propagates an error, that error is
a non-notFound checker failure, the config file is untouched, and the parser
state at the raise decomposes as: the sections before the failing one fully
processed, the failing one partially processed, and every section after the
failing one untouched; (c) conversely, whenever some walked section of the
file contains an entry whose check raises a non-notFound failure, `prune`
does propagate an uncaught checker failure. -/
theorem prune_error_policy (ck : Checkers) (s : ConfigState)
    (hpres : ∀ sec ∈ trackedSections, hasSection s.file sec = true) :
    ((benign ck.iamRole ∧ benign ck.vpc ∧ benign ck.securityGroup) →
      ∃ s', prune ck s = .ok s') ∧
    (∀ e s', prune ck s = .error (e, s') →
      (∃ msg, e = .awsError msg) ∧ s'.file = s.file ∧
        ∃ l1 st l2 mid, pruneSteps ck = l1 ++ st :: l2 ∧
          runSteps l1 s.file = .ok mid ∧
          pruneSection st.2 st.1 mid = .error (e, s'.mem) ∧
          ∀ sec ∈ l2.map (·.1), getSection s'.mem sec = getSection s.file sec) ∧
    (∀ st ∈ pruneSteps ck, ∀ o msg, o ∈ (optionsOf s.file st.1).getD [] →
      st.2 o = .error (.other msg) →
      ∃ e s', prune ck s = .error (e, s') ∧ ∃ msg', e = .awsError msg') := by
  refine ⟨?_, ?_, ?_⟩
  · rintro ⟨hb1, hb2, hb3⟩
    obtain ⟨m, hm⟩ := runSteps_benign_ok (pruneSteps ck)
      (pruneSteps_benign ck hb1 hb2 hb3) s.file
      (by rw [pruneSteps_names]; exact hpres)
    exact ⟨_, by rw [prune_eq, hm]⟩
  · intro e s' h
    rw [prune_eq] at h
    cases hrs : runSteps (pruneSteps ck) s.file with
    | ok m =>
      rw [hrs] at h
      exact absurd h (by simp)
    | error em =>
      obtain ⟨e0, m0⟩ := em
      rw [hrs] at h
      have hp := Except.error.inj h
      have he0 : e0 = e := congrArg Prod.fst hp
      have hs2 : s' = { file := s.file, mem := m0 } := (congrArg Prod.snd hp).symm
      subst hs2
      subst he0
      obtain ⟨l1, st, l2, mid, hl, hrun, herr⟩ :=
        runSteps_error_decomp (pruneSteps ck) s.file m0 e0 hrs
      have hst1 : st.1 ∈ trackedSections := by
        rw [← pruneSteps_names ck, hl]
        simp
      have hpmid : hasSection mid st.1 = true := by
        rw [(runSteps_ok_shape l1 s.file mid hrun).1 st.1]
        exact hpres st.1 hst1
      rcases pruneSection_error herr with ⟨_, _, hfalse⟩ | ⟨⟨msg, hmsg⟩, g, hg⟩
      · rw [hpmid] at hfalse
        exact absurd hfalse (by simp)
      · refine ⟨⟨msg, hmsg⟩, rfl, l1, st, l2, mid, hl, hrun, herr, ?_⟩
        intro sec hsec
        have hnd : (l1.map (·.1) ++ st.1 :: l2.map (·.1)).Nodup := by
          have hnd0 := trackedSections_nodup
          rw [← pruneSteps_names ck, hl] at hnd0
          simpa using hnd0
        have hsecB : sec ∈ st.1 :: l2.map (·.1) := List.mem_cons_of_mem _ hsec
        have hdisj := (List.nodup_append.mp hnd).2.2
        have hnotA : sec ∉ l1.map (·.1) := fun ha => hdisj ha hsecB
        have hstl2 : st.1 ∉ l2.map (·.1) :=
          (List.nodup_cons.mp (List.nodup_append.mp hnd).2.1).1
        have hne : sec ≠ st.1 := fun hc => hstl2 (hc ▸ hsec)
        show getSection m0 sec = getSection s.file sec
        rw [hg, getSection_mapSection, if_neg hne,
          (runSteps_ok_shape l1 s.file mid hrun).2 sec hnotA]
  · intro st hst o msg ho hco
    obtain ⟨e, m', hm, hmsg⟩ := runSteps_propagates (pruneSteps ck) s.file
      (by rw [pruneSteps_names]; exact hpres)
      (by rw [pruneSteps_names]; exact trackedSections_nodup)
      st hst o msg ho hco
    exact ⟨e, { file := s.file, mem := m' }, by rw [prune_eq, hm], hmsg⟩

/-- C10: when any of the eight walked sections is absent from the config
file, `prune` (run with existence checks in their normal regime) raises a
section-not-found error naming the first absent section in processing order
instead of treating it as empty; the file is untouched and the sections after
that point are never examined — their contents in the parser equal the
on-disk contents. -/
theorem prune_missing_section (ck : Checkers) (s : ConfigState) (k : String)
    (hb : benign ck.iamRole ∧ benign ck.vpc ∧ benign ck.securityGroup)
    (hk : trackedSections.find? (fun n => !(hasSection s.file n)) = some k) :
    ∃ s', prune ck s = .error (.noSection k, s') ∧ s'.file = s.file ∧
      ∀ sec ∈ afterSection trackedSections k,
        getSection s'.mem sec = getSection s.file sec := by
  obtain ⟨m', hrun, hafter⟩ := runSteps_first_missing (pruneSteps ck) s.file k
    (pruneSteps_benign ck hb.1 hb.2.1 hb.2.2)
    (by rw [pruneSteps_names]; exact trackedSections_nodup)
    (by rw [pruneSteps_names]; exact hk)
  refine ⟨{ file := s.file, mem := m' }, ?_, rfl, ?_⟩
  · rw [prune_eq, hrun]
  · intro sec hsec
    exact hafter sec (by rw [pruneSteps_names]; exact hsec)

/-- A checker set whose existence checks never raise anything (all resources
"exist"); used to exercise the missing-section path of `prune`. -/
def ckAllOk : Checkers :=
  { iamRole := alwaysOk, vpc := alwaysOk, securityGroup := alwaysOk }

/-- A config state whose file holds only a `roles` section, so the first
absent tracked section is `vpc`. -/
def s10 : ConfigState := { file := [("roles", [("r1", "v")])], mem := [] }

/-- Witness for C10: on a file with only a `roles` section, `prune` fails
with `noSection "vpc"` — the first absent tracked section — leaving the file
unchanged and the later tracked sections unexamined. -/
theorem prune_missing_section_witness :
    ∃ s', prune ckAllOk s10 = .error (.noSection "vpc", s') ∧ s'.file = s10.file ∧
      ∀ sec ∈ afterSection trackedSections "vpc",
        getSection s'.mem sec = getSection s10.file sec :=
  prune_missing_section ckAllOk s10 "vpc"
    ⟨alwaysOk_benign, alwaysOk_benign, alwaysOk_benign⟩ (by decide)

/-- A checker set under which `boom-role` fails its existence check with an
error other than not-found, and everything else exists. -/
def ck8 : Checkers :=
  { iamRole := fun n => if n == "boom-role" then .error (.other "boom") else .ok ()
    vpc := alwaysOk
    securityGroup := alwaysOk }

/-- A document holding all eight tracked sections, with one role entry whose
existence check blows up under `ck8`. -/
def d8 : ConfigDocument :=
  [("roles", [("boom-role", "r")]),
   ("vpc", []), ("security-groups", []), ("docker-repos", []),
   ("job-definitions", []), ("compute-environments", []),
   ("job-queues", []), ("jobs", [])]

/-- Witness for C8: instantiating the error-policy theorem on a state holding
all eight tracked sections. -/
theorem prune_error_policy_witness :
    ((benign ck8.iamRole ∧ benign ck8.vpc ∧ benign ck8.securityGroup) →
      ∃ s', prune ck8 { file := d8, mem := d8 } = .ok s') ∧
    (∀ e s', prune ck8 { file := d8, mem := d8 } = .error (e, s') →
      (∃ msg, e = .awsError msg) ∧
        s'.file = ({ file := d8, mem := d8 } : ConfigState).file ∧
        ∃ l1 st l2 mid, pruneSteps ck8 = l1 ++ st :: l2 ∧
          runSteps l1 ({ file := d8, mem := d8 } : ConfigState).file = .ok mid ∧
          pruneSection st.2 st.1 mid = .error (e, s'.mem) ∧
          ∀ sec ∈ l2.map (·.1), getSection s'.mem sec =
            getSection ({ file := d8, mem := d8 } : ConfigState).file sec) ∧
    (∀ st ∈ pruneSteps ck8, ∀ o msg,
      o ∈ (optionsOf ({ file := d8, mem := d8 } : ConfigState).file st.1).getD [] →
      st.2 o = .error (.other msg) →
      ∃ e s', prune ck8 { file := d8, mem := d8 } = .error (e, s') ∧
        ∃ msg', e = .awsError msg') :=
  prune_error_policy ck8 { file := d8, mem := d8 } (by decide)

/-- The checker set of the C7 scenario: the role `ghost-role` does not exist,
everything else does. -/
def ck7 : Checkers :=
  { iamRole := fun n => if n == "ghost-role" then .error .notFound else .ok ()
    vpc := alwaysOk
    securityGroup := alwaysOk }

/-- The C7 config file: a `roles` section with one existing and one
nonexistent role, all other tracked sections present and empty. -/
def d7 : ConfigDocument :=
  [("roles", [("existing-role", "arn:ok"), ("ghost-role", "arn:gone")]),
   ("vpc", []), ("security-groups", []), ("docker-repos", []),
   ("job-definitions", []), ("compute-environments", []),
   ("job-queues", []), ("jobs", [])]

/-- The document `prune` computes in memory for the C7 scenario: the
nonexistent role removed, all else untouched. -/
def d7pruned : ConfigDocument :=
  [("roles", [("existing-role", "arn:ok")]),
   ("vpc", []), ("security-groups", []), ("docker-repos", []),
   ("job-definitions", []), ("compute-environments", []),
   ("job-queues", []), ("jobs", [])]

/-- C7 (code behavior at the divergence): with a `roles` section holding one
existing and one nonexistent role, `prune` succeeds and removes the
nonexistent entry from the in-memory parser — but it never writes the parser
back to disk, so the config file still contains both entries after the call:
a fresh re-read does not show only the existing role, contradicting the
claim. -/
theorem prune_does_not_persist :
    prune ck7 { file := d7, mem := d7 } = .ok { file := d7, mem := d7pruned } ∧
      getOpt d7 "roles" "ghost-role" = some "arn:gone" ∧
      getOpt d7pruned "roles" "ghost-role" = none :=
  ⟨rfl, rfl, rfl⟩

end Cloudknot
